import Mathlib

/-!
# Verification of the aria parser's import merging and data-type machinery

Shallow embedding of `aria/parser/framework/elements/imports.py` and
`aria/parser/framework/elements/data_types.py`.  Documents (the spec's
"Document Holder" values) are modelled as order-preserving association
lists from keys (strings) to YAML-like values; the Holder wrapper itself
only provides key lookup and structural copy, so the association list
carries exactly the information the merging code consults.
-/

namespace Aria

/-- A YAML-like value as stored inside a Document Holder: a scalar string,
a sequence, or an order-preserving mapping. -/
inductive YVal where
  | str : String → YVal
  | list : List YVal → YVal
  | map : List (String × YVal) → YVal
deriving Repr

/-- The top level of one parsed document: an ordered association list of
top-level section keys to their values. -/
abbrev DocMap := List (String × YVal)

/-- Keys of an association list, in order. -/
def keysOf (m : List (String × YVal)) : List String := m.map Prod.fst

/-- First-match association lookup (Python dict access by key). -/
def lookupKey (m : List (String × YVal)) (k : String) : Option YVal :=
  match m with
  | [] => none
  | (k', v) :: rest => if k' = k then some v else lookupKey rest k

/-- Replace the value stored under the first occurrence of `k`
(in-place mutation of the holder stored at that key). -/
def replaceEntry (m : List (String × YVal)) (k : String) (v : YVal) :
    List (String × YVal) :=
  match m with
  | [] => []
  | (k', v') :: rest =>
    if k' = k then (k', v) :: rest else (k', v') :: replaceEntry rest k v

/-- `d[k] = v` on a Python dict: overwrite if present, else append. -/
def setEntry (m : List (String × YVal)) (k : String) (v : YVal) :
    List (String × YVal) :=
  if k ∈ keysOf m then replaceEntry m k v else m ++ [(k, v)]

/-! ## Section-name constants

Modelled from the spec: the `constants` module and `dsl_supported_versions`
are not part of the provided sources; the spec names the sections
(interfaces, node types, plugins, workflows, relationships, groups, data
types; nested-imports-declaration, version-declaration,
inline-type-definitions).  The merging code only compares these strings for
equality and membership, so their exact spelling is immaterial to every
claim. -/

def INTERFACES : String := "interfaces"
def NODE_TYPES : String := "node_types"
def PLUGINS : String := "plugins"
def WORKFLOWS : String := "workflows"
def RELATIONSHIPS : String := "relationships"
def GROUPS : String := "groups"
def DATA_TYPES : String := "data_types"
def DSL_DEFINITIONS : String := "dsl_definitions"
def IMPORTS : String := "imports"
def VERSION : String := "tosca_definitions_version"

/-- `ImportsLoader.MERGE_NO_OVERRIDE` (imports.py lines 50-58). -/
def MERGE_NO_OVERRIDE : List String :=
  [INTERFACES, NODE_TYPES, PLUGINS, WORKFLOWS, RELATIONSHIPS, GROUPS,
   DATA_TYPES]

/-- `ImportsLoader.IGNORE` (imports.py lines 59-63). -/
def IGNORE : List String := [DSL_DEFINITIONS, IMPORTS, VERSION]

/-! ## The merge step -/

/-- Errors raised by the merging code, each carrying the context the
corresponding `DSLParsingLogicException` message formats in. -/
inductive MergeErr where
  /-- `DSLParsingLogicException(3, "Import failed: non-mergeable field ...")`
  raised by `assert_mergeable` (imports.py lines 149-152). -/
  | nonMergeableField (key : String)
  /-- `DSLParsingLogicException(4, "... Could not merge '{section}' due to
  conflict on '{key}'")` (imports.py lines 154-162); the spec's
  `DuplicateDefinition`. -/
  | conflict (sectionName key : String)
  /-- A no-override section whose value is not a mapping: the Python code
  would crash iterating `.value.iteritems()` of a non-dict holder. -/
  | notAMapping (key : String)
deriving Repr, DecidableEq

/-- `ImportsLoader._merge_into_dict_or_throw_on_duplicate` (imports.py
lines 154-162): fold the entries of the imported section's mapping into
the accumulator's mapping, failing on the first key already present. -/
def merge_into_dict_or_throw_on_duplicate (keyName : String) :
    List (String × YVal) → List (String × YVal) →
    Except MergeErr (List (String × YVal))
  | [], toDict => .ok toDict
  | (k, v) :: rest, toDict =>
    if k ∈ keysOf toDict then .error (.conflict keyName k)
    else merge_into_dict_or_throw_on_duplicate keyName rest (toDict ++ [(k, v)])

/-- One iteration step of `ImportsLoader.merge_parsed_into_combined`
(imports.py lines 128-147), folded over the imported document's top-level
entries in document order: ignore keys are skipped, absent keys adopted,
no-override keys merged key-wise, and any other already-present key raises
`assert_mergeable`'s non-mergeable-field error. -/
def mergeEntries (combined : DocMap) : List (String × YVal) →
    Except MergeErr DocMap
  | [] => .ok combined
  | (k, v) :: rest =>
    if k ∈ IGNORE then mergeEntries combined rest
    else if k ∈ keysOf combined then
      if k ∈ MERGE_NO_OVERRIDE then
        match lookupKey combined k, v with
        | some (.map toDict), .map fromDict =>
          match merge_into_dict_or_throw_on_duplicate k fromDict toDict with
          | .ok merged => mergeEntries (replaceEntry combined k (.map merged)) rest
          | .error e => .error e
        | _, _ => .error (.notAMapping k)
      else .error (.nonMergeableField k)
    else mergeEntries (combined ++ [(k, v)]) rest

/-- `ImportsLoader.merge_parsed_into_combined` with the default
`merge_no_override` set. -/
def merge_parsed_into_combined (combined imported : DocMap) :
    Except MergeErr DocMap :=
  mergeEntries combined imported

/-- The merge loop of `ImportsLoader._combine_imports` (imports.py lines
115-124): fold the ordered imported documents into the accumulator in
order. -/
def combineDocs : DocMap → List DocMap → Except MergeErr DocMap
  | acc, [] => .ok acc
  | acc, d :: ds =>
    match merge_parsed_into_combined acc d with
    | .ok acc' => combineDocs acc' ds
    | .error e => .error e

/-- `ImportsLoader._combine_imports` after the ordered imports have been
built (imports.py lines 111-126): the root's version item is read first,
the accumulator starts from an emptied copy of the root holder, each
ordered document (the root itself included, first) is merged in order, and
the root's version key/value pair is re-attached at the end.  A root
without a version entry re-attaches nothing (the Python code would store a
`None` item); every theorem below supplies a root that declares a
version. -/
def combine_imports (root : DocMap) (ordered : List DocMap) :
    Except MergeErr DocMap :=
  match combineDocs [] ordered with
  | .error e => .error e
  | .ok merged =>
    match lookupKey root VERSION with
    | some v => .ok (setEntry merged VERSION v)
    | none => .ok merged

/-! ## Version compatibility check -/

/-- `DSLParsingLogicException(28, ...)`, the spec's
`IncompatibleImportVersion`: carries the root version, the import url and
the import's version, as formatted into the message. -/
inductive VersionErr where
  | incompatible (dslVersion importUrl importVersion : String)
deriving Repr, DecidableEq

/-- `ImportsLoader._validate_version` (imports.py lines 240-257): the
declared version of an import (if any) must equal the root's version, or
that version with `_0` appended must equal the root's version. -/
def validate_version (dslVersion importUrl : String)
    (importVersion : Option String) : Except VersionErr Unit :=
  match importVersion with
  | none => .ok ()
  | some v =>
    if v ≠ dslVersion ∧ v ++ "_0" ≠ dslVersion then
      .error (.incompatible dslVersion importUrl v)
    else .ok ()

/-! ## The imports graph

`ImportsGraph` (imports.py lines 260-286) keeps two directed graphs over
the same node set: the first-discovery tree and the full dependency graph.
Nodes are modelled as an association list in registration order (each node
carrying its `parsed` attribute), edges as lists of (source, target)
pairs; an edge `(importUrl, viaImport)` points from the imported document
to the document that imports it, exactly as `add_edge(import_url,
via_import)` does. -/

/-- First-match lookup of a registered document (`self._imports_tree.node
[node]['parsed']`). -/
def lookupDoc (m : List (String × DocMap)) (k : String) : Option DocMap :=
  match m with
  | [] => none
  | (k', v) :: rest => if k' = k then some v else lookupDoc rest k

structure ImportsGraph where
  nodes : List (String × DocMap)
  treeEdges : List (String × String)
  graphEdges : List (String × String)
deriving Repr

def ImportsGraph.empty : ImportsGraph := ⟨[], [], []⟩

def ImportsGraph.keys (g : ImportsGraph) : List String := g.nodes.map Prod.fst

/-- `ImportsGraph.add` (imports.py lines 265-271): register the node if
not already present, then (if a via-import is given) add the edge to both
graphs. -/
def ImportsGraph.add (g : ImportsGraph) (importUrl : String) (parsed : DocMap)
    (viaImport : Option String) : ImportsGraph :=
  let g' :=
    if importUrl ∈ g.keys then g
    else { g with nodes := g.nodes ++ [(importUrl, parsed)] }
  match viaImport with
  | none => g'
  | some via =>
    { g' with treeEdges := g'.treeEdges ++ [(importUrl, via)],
              graphEdges := g'.graphEdges ++ [(importUrl, via)] }

/-- `ImportsGraph.add_graph_dependency` (imports.py lines 273-275): record
the edge only in the full graph, never in the tree. -/
def ImportsGraph.add_graph_dependency (g : ImportsGraph) (importUrl via : String) :
    ImportsGraph :=
  { g with graphEdges := g.graphEdges ++ [(importUrl, via)] }

/-- `__contains__` (imports.py lines 284-285): membership in the tree's
node set. -/
def ImportsGraph.contains (g : ImportsGraph) (importUrl : String) : Prop :=
  importUrl ∈ g.keys

instance (g : ImportsGraph) (importUrl : String) :
    Decidable (g.contains importUrl) :=
  inferInstanceAs (Decidable (importUrl ∈ g.keys))

/-- Does `v` have an incoming edge from a node still in `remaining`? -/
def hasIncoming (edges : List (String × String)) (remaining : List String)
    (v : String) : Bool :=
  edges.any fun e => e.2 == v && remaining.contains e.1

/-- A node with no incoming edge from the nodes still to be ordered. -/
def readyNode (edges : List (String × String)) (remaining : List String)
    (v : String) : Bool :=
  !hasIncoming edges remaining v

/-- One round per unit of fuel: pick the first node with no incoming edge
from the nodes still remaining, list it, and recurse on the rest. -/
def kahnAux (edges : List (String × String)) :
    Nat → List String → Option (List String)
  | _, [] => some []
  | 0, _ :: _ => none
  | n + 1, v₀ :: rest =>
    match (v₀ :: rest).find? (readyNode edges (v₀ :: rest)) with
    | none => none
    | some v =>
      (kahnAux edges n ((v₀ :: rest).erase v)).map (fun l => v :: l)

/-- Topological sort of the nodes `remaining` with respect to `edges`
(for every edge `(u, v)` with both endpoints present, `u` is listed before
`v`), or `none` when no such order exists.  This models the contract of
`networkx.topological_sort`, on which imports.py relies; the repository
never depends on which of the admissible orders the library picks. -/
def kahnSort (edges : List (String × String)) (remaining : List String) :
    Option (List String) :=
  kahnAux edges remaining.length remaining

/-- Failure mode of `ImportsGraph.topological_sort`: `networkx` raises an
unfeasibility error when the tree has a cycle (the spec's `ImportCycle`,
for which imports.py itself installs no handler). -/
inductive GraphErr where
  | cycle
deriving Repr, DecidableEq

/-- `ImportsGraph.topological_sort` (imports.py lines 277-282): the
topological order of the tree component, reversed, each node paired with
its stored `parsed` document. -/
def ImportsGraph.topological_sort (g : ImportsGraph) :
    Except GraphErr (List (String × DocMap)) :=
  match kahnSort g.treeEdges g.keys with
  | none => .error .cycle
  | some order =>
    .ok (order.reverse.filterMap fun u =>
      (lookupDoc g.nodes u).map fun d => (u, d))

/-! ## Building the ordered imports

`ImportsLoader._build_ordered_imports` (imports.py lines 178-225).
Resource-location resolution (`_get_resource_location`) consults the
filesystem (`os.path.exists`) and configuration, so it is abstracted as an
injected function `resolveLoc`; fetching plus YAML loading
(`resolver.fetch_import` followed by `load`) is abstracted as an injected
function `fetchParse`, with the list of urls passed to it recorded in
order.  The recursion is fuel-indexed; exhausting fuel is reported as a
distinct error, and every concrete run below is given ample fuel. -/

inductive BuildErr where
  /-- `DSLParsingLogicException(13, "Import failed: no suitable location
  found ...")`. -/
  | noLocation (ref : String)
  /-- the injected resolver/loader failed for this url. -/
  | fetchError (url : String)
  /-- fuel exhausted (an artifact of the fuel-indexed embedding). -/
  | outOfFuel
  /-- cycle error propagated from the topological sort. -/
  | cycle
deriving Repr, DecidableEq

/-- `location(value) = value or 'root'` (imports.py lines 184-185). -/
def locationOf (value : Option String) : String := value.getD "root"

/-- The imports list of a document: `get_item(IMPORTS)` followed by
`restore()`; absent section means no imports, and each item is a string
(enforced upstream by the `Imports` element's `List(type=Import)`
schema). -/
def getImports (d : DocMap) : List String :=
  match lookupKey d IMPORTS with
  | some (.list vs) => vs.filterMap fun v =>
      match v with
      | .str s => some s
      | _ => none
  | _ => []

/-- State threaded through the recursive build: the graph under
construction and the log of urls fetched through the resolver, in order. -/
structure BuildState where
  graph : ImportsGraph
  fetched : List String
deriving Repr

/-- `_build_ordered_imports_recursive` (imports.py lines 190-223),
processing the pending import references of the current document: resolve
each reference; a reference whose url is already registered only records a
full-graph dependency; otherwise the url is fetched, parsed, registered
(with a tree edge to the current document) and its own imports are
processed recursively before the remaining references. -/
def processRefs (resolveLoc : String → Option String)
    (fetchParse : String → Option DocMap) :
    Nat → List String → Option String → BuildState →
    Except BuildErr BuildState
  | _, [], _, st => .ok st
  | 0, _ :: _, _, _ => .error .outOfFuel
  | n + 1, ref :: rest, curLoc, st =>
    match resolveLoc ref with
    | none => .error (.noLocation ref)
    | some url =>
      if st.graph.contains url then
        processRefs resolveLoc fetchParse n rest curLoc
          { st with graph := st.graph.add_graph_dependency url (locationOf curLoc) }
      else
        match fetchParse url with
        | none => .error (.fetchError url)
        | some doc =>
          match processRefs resolveLoc fetchParse n (getImports doc) (some url)
              { graph := st.graph.add url doc (some (locationOf curLoc)),
                fetched := st.fetched ++ [url] } with
          | .error e => .error e
          | .ok stNext => processRefs resolveLoc fetchParse n rest curLoc stNext

/-- The graph-building pass of `_build_ordered_imports`: register the root
document under `location(dsl_location)` and process its imports
recursively. -/
def buildPass (resolveLoc : String → Option String)
    (fetchParse : String → Option DocMap) (root : DocMap)
    (rootLoc : Option String) (fuel : Nat) : Except BuildErr BuildState :=
  let st0 : BuildState :=
    { graph := ImportsGraph.empty.add (locationOf rootLoc) root none,
      fetched := [] }
  processRefs resolveLoc fetchParse fuel (getImports root) rootLoc st0

/-- `ImportsLoader._build_ordered_imports` (imports.py lines 178-225):
build the graph, then return the reversed topological sort of its tree. -/
def build_ordered_imports (resolveLoc : String → Option String)
    (fetchParse : String → Option DocMap) (root : DocMap)
    (rootLoc : Option String) (fuel : Nat) :
    Except BuildErr (List (String × DocMap)) :=
  match buildPass resolveLoc fetchParse root rootLoc fuel with
  | .error e => .error e
  | .ok st =>
    match st.graph.topological_sort with
    | .error .cycle => .error .cycle
    | .ok ordered => .ok ordered

/-! ## Data types (`data_types.py`)

A declared data type is its `derived_from` name (if any) and its ordered
property schema; each property declares at most a `type`, `required`,
`default` and `description` (`SchemaProperty.schema`, data_types.py lines
90-96).  A property key present with a Python `None` value behaves like an
absent one, so `Option` encodes presence. -/

structure PropDecl where
  type : Option String := none
  required : Option Bool := none
  default : Option YVal := none
  description : Option String := none
deriving Repr

structure DataTypeDecl where
  derived_from : Option String := none
  properties : List (String × PropDecl) := []
deriving Repr

/-- First-match lookup in a data-type registry. -/
def lookupType (reg : List (String × DataTypeDecl)) (k : String) :
    Option DataTypeDecl :=
  match reg with
  | [] => none
  | (k', v) :: rest => if k' = k then some v else lookupType rest k

def regKeys (reg : List (String × DataTypeDecl)) : List String :=
  reg.map Prod.fst

/-- Modelled from the spec: `constants.USER_PRIMITIVE_TYPES` (the
`constants` module is outside the provided sources); the spec calls these
the built-in primitive type names.  Every claim below only tests
membership, never a particular spelling. -/
def USER_PRIMITIVE_TYPES : List String :=
  ["string", "integer", "float", "boolean"]

/-- `DataType.direct_component_types` (data_types.py lines 178-188): the
parent type name (if any) together with the `type` name of every direct
property.  The Python set also holds `None` for properties without a
declared type; a `None` entry can never equal any data type's name, so it
is dropped here. -/
def direct_component_types (d : DataTypeDecl) : List String :=
  d.derived_from.toList ++ d.properties.filterMap fun p => p.2.type

/-- The sibling data types matched by the `component_types` requirement's
predicate `target.name in source.direct_component_types` (data_types.py
lines 131-138): the direct component names that denote registered data
types. -/
def matchedComponents (reg : List (String × DataTypeDecl))
    (d : DataTypeDecl) : List String :=
  (direct_component_types d).filter fun c => c ∈ regKeys reg

/-- The key set of the `component_types` dict a data type holds after
`DataType.parse` (data_types.py lines 158-173): the union of the
`component_types` dicts provided by every matched sibling, with the type's
own name added at the end (`self.component_types[self.name] = result`).
Each provider's dict is its own post-`parse` `component_types`
(`calculate_provided`, lines 175-176), hence the recursion; the dependency
engine evaluates providers first, so a fuel index bounds the recursion
depth and any fuel at least the dependency depth computes the fixpoint. -/
def dataTypeComponentKeys (reg : List (String × DataTypeDecl)) :
    Nat → String → Finset String
  | 0, t => {t}
  | n + 1, t =>
    match lookupType reg t with
    | none => {t}
    | some d =>
      (matchedComponents reg d).foldr
        (fun c acc => dataTypeComponentKeys reg n c ∪ acc) {t}

/-- The component-type set exactly as the spec sentence words it: the
union of every data type named as the `type` of a direct property, the
parent type name if any, and — transitively — the component types of those
types (a set of *other* data types; the type itself is not inserted). -/
def specComponentClosure (reg : List (String × DataTypeDecl)) :
    Nat → String → Finset String
  | 0, _ => ∅
  | n + 1, t =>
    match lookupType reg t with
    | none => ∅
    | some d =>
      (matchedComponents reg d).foldr
        (fun c acc => insert c (specComponentClosure reg n c) ∪ acc) ∅

/-- Modelled from the spec: `utils.parse_value` (the `utils` module is
outside the provided sources) type-checks a value against a type name and
the data types in scope, and for a user-defined type derives the missing
properties' defaults — so an empty mapping becomes the empty structured
value of that type.  Primitive-typed and untyped values pass through. -/
def parse_value (reg : List (String × DataTypeDecl)) :
    Nat → Option String → YVal → YVal
  | 0, _, v => v
  | _ + 1, none, v => v
  | n + 1, some t, v =>
    if t ∈ USER_PRIMITIVE_TYPES then v
    else
      match lookupType reg t, v with
      | some d, .map entries =>
        .map (entries ++ d.properties.filterMap fun p =>
          if p.1 ∈ entries.map Prod.fst then none
          else
            match p.2.default with
            | some dv => some (p.1, parse_value reg n p.2.type dv)
            | none =>
              match p.2.type with
              | some pt =>
                if pt ∈ USER_PRIMITIVE_TYPES then none
                else some (p.1, parse_value reg n (some pt) (.map []))
              | none => none)
      | _, _ => v

/-- `SchemaPropertyDefault.parse` (data_types.py lines 57-79): with no
declared default, a user-defined (non-primitive) declared type makes the
initial value an empty mapping to be derived through `parse_value`, and
any other type yields `None`; a declared default is passed to
`parse_value` unchanged. -/
def schemaPropertyDefault_parse (reg : List (String × DataTypeDecl))
    (fuel : Nat) (typeName : Option String) (declaredDefault : Option YVal) :
    Option YVal :=
  match declaredDefault with
  | none =>
    match typeName with
    | some t =>
      if t ∈ USER_PRIMITIVE_TYPES then none
      else some (parse_value reg fuel (some t) (.map []))
    | none => none
  | some v => some (parse_value reg fuel typeName v)

/-- The result of `SchemaProperty.parse` (data_types.py lines 98-105): one
entry per defined child.  `Option` fields encode key presence; `default`
is present exactly when the child is `defined` — modelled from the spec:
`Element.defined` (framework core outside the provided sources) holds when
the key was declared in the document or the child's parse produced a
value, which for the default child coincides with its parse result being
non-`None`. -/
structure ParsedProperty where
  type : Option String
  required : Option Bool
  description : Option String
  default : Option YVal
  initial_default : Option (Option YVal)
deriving Repr

/-- `SchemaProperty.parse` (data_types.py lines 98-105), for a property
declaration evaluated against the component types in scope;
`withInitialDefault` tells whether the owning schema is a
`SchemaWithInitialDefault` (lines 102-104). -/
def schemaProperty_parse (reg : List (String × DataTypeDecl)) (fuel : Nat)
    (decl : PropDecl) (withInitialDefault : Bool) : ParsedProperty :=
  { type := decl.type,
    required := decl.required,
    description := decl.description,
    default := schemaPropertyDefault_parse reg fuel decl.type decl.default,
    initial_default := if withInitialDefault then some decl.default else none }

/-- Recognizer for the cycle error among the outcomes of
`build_ordered_imports`. -/
def isCycleError (r : Except BuildErr (List (String × DocMap))) : Bool :=
  match r with
  | .error .cycle => true
  | _ => false

/-- The invariant maintained by the graph-building pass: registered keys
are distinct, every tree edge points from a later-registered node back to
an earlier-registered one (which is why the tree can never contain a
cycle), and the fetch log is duplicate-free and within the registered
keys. -/
def BuildInv (st : BuildState) : Prop :=
  st.graph.keys.Nodup ∧
  (∀ e ∈ st.graph.treeEdges, e.1 ∈ st.graph.keys ∧ e.2 ∈ st.graph.keys ∧
    st.graph.keys.indexOf e.2 < st.graph.keys.indexOf e.1) ∧
  st.fetched.Nodup ∧
  (∀ u ∈ st.fetched, u ∈ st.graph.keys)

/-! ## Concrete configurations used by the analyses below -/

/-- Root document of the cyclic configuration root → A → B → A. -/
def cycRoot : DocMap := [(VERSION, .str "v1"), (IMPORTS, .list [.str "A"])]

/-- Document A of the cyclic configuration: imports B. -/
def cycDocA : DocMap := [(IMPORTS, .list [.str "B"])]

/-- Document B of the cyclic configuration: imports A, closing the cycle. -/
def cycDocB : DocMap := [(IMPORTS, .list [.str "A"])]

/-- Resolver for the cyclic configuration: references are already
canonical locations. -/
def cycResolve : String → Option String := fun r => some r

/-- Fetch-and-parse for the cyclic configuration. -/
def cycFetch : String → Option DocMap := fun u =>
  if u = "A" then some cycDocA else if u = "B" then some cycDocB else none

/-- A registry holding one data type `T` with no parent and no
properties. -/
def soloTypeReg : List (String × DataTypeDecl) := [("T", ⟨none, []⟩)]

/-- Root document of a two-document chain: the root imports A. -/
def chainRoot : DocMap := [(VERSION, .str "v1"), (IMPORTS, .list [.str "A"])]

/-- Document A of the two-document chain (no imports of its own). -/
def chainDocA : DocMap := [(NODE_TYPES, .map [("t1", .str "x")])]

/-- The imports graph after registering the chain: root first, then A
discovered via root — exactly the state `_build_ordered_imports` reaches
on the chain configuration. -/
def chainGraph : ImportsGraph :=
  (ImportsGraph.empty.add "root" chainRoot none).add "A" chainDocA (some "root")

/-- Fetch-and-parse for the chain configuration. -/
def chainFetch : String → Option DocMap := fun u =>
  if u = "A" then some chainDocA else none

/-! ## Association-list helper lemmas -/

theorem keysOf_append (a b : List (String × YVal)) :
    keysOf (a ++ b) = keysOf a ++ keysOf b := by
  simp [keysOf]

theorem keysOf_replaceEntry (m : List (String × YVal)) (k : String) (v : YVal) :
    keysOf (replaceEntry m k v) = keysOf m := by
  induction m with
  | nil => rfl
  | cons e rest ih =>
    obtain ⟨k', v'⟩ := e
    rw [replaceEntry]
    by_cases h : k' = k
    · rw [if_pos h]
      rfl
    · rw [if_neg h]
      show k' :: keysOf (replaceEntry rest k v) = k' :: keysOf rest
      rw [ih]

theorem lookupKey_mem_keysOf (m : List (String × YVal)) (k : String) (v : YVal)
    (h : lookupKey m k = some v) : k ∈ keysOf m := by
  induction m with
  | nil => simp [lookupKey] at h
  | cons e rest ih =>
    obtain ⟨k', v'⟩ := e
    rw [lookupKey] at h
    by_cases he : k' = k
    · exact List.mem_cons.mpr (Or.inl he.symm)
    · rw [if_neg he] at h
      exact List.mem_cons.mpr (Or.inr (ih h))

theorem lookupKey_append_right (m : List (String × YVal)) (k : String)
    (v : YVal) (h : k ∉ keysOf m) :
    lookupKey (m ++ [(k, v)]) k = some v := by
  induction m with
  | nil => simp [lookupKey]
  | cons e rest ih =>
    obtain ⟨k', v'⟩ := e
    simp only [keysOf, List.map_cons, List.mem_cons, not_or] at h
    rw [List.cons_append, lookupKey, if_neg (fun hh => h.1 hh.symm)]
    exact ih h.2

/-! ## Correctness of the topological sort -/

theorem kahnAux_perm (edges : List (String × String)) :
    ∀ (n : Nat) (rem : List String) (l : List String),
      kahnAux edges n rem = some l → l.Perm rem := by
  intro n
  induction n with
  | zero =>
    intro rem l h
    cases rem with
    | nil => simp [kahnAux] at h; simp [← h]
    | cons a t => simp [kahnAux] at h
  | succ n ih =>
    intro rem l h
    cases rem with
    | nil => simp [kahnAux] at h; simp [← h]
    | cons v₀ rest =>
      rw [kahnAux] at h
      split at h
      · exact absurd h (by simp)
      · rename_i v heq
        simp only [Option.map_eq_some'] at h
        obtain ⟨l', hl', rfl⟩ := h
        have hv : v ∈ v₀ :: rest := List.mem_of_find?_eq_some heq
        exact ((ih _ l' hl').cons v).trans (List.perm_cons_erase hv).symm

theorem kahnAux_before (edges : List (String × String)) :
    ∀ (n : Nat) (rem : List String) (l : List String),
      kahnAux edges n rem = some l →
      ∀ u v, (u, v) ∈ edges → u ∈ rem → v ∈ rem →
        l.indexOf u < l.indexOf v := by
  intro n
  induction n with
  | zero =>
    intro rem l h u v _ hu _
    cases rem with
    | nil => simp at hu
    | cons a t => simp [kahnAux] at h
  | succ n ih =>
    intro rem l h u v he hu hv
    cases rem with
    | nil => simp at hu
    | cons v₀ rest =>
      rw [kahnAux] at h
      split at h
      · exact absurd h (by simp)
      · rename_i w heq
        simp only [Option.map_eq_some'] at h
        obtain ⟨l', hl', rfl⟩ := h
        have hready : readyNode edges (v₀ :: rest) w = true := List.find?_some heq
        have hnoinc : hasIncoming edges (v₀ :: rest) w = false := by
          rw [readyNode, Bool.not_eq_true'] at hready
          exact hready
        by_cases hvw : v = w
        · subst hvw
          exfalso
          have hany : edges.any (fun e => e.2 == v && (v₀ :: rest).contains e.1) = true := by
            rw [List.any_eq_true]
            exact ⟨(u, v), he, by simp [hu]⟩
          rw [hasIncoming] at hnoinc
          rw [hany] at hnoinc
          cases hnoinc
        · have hvmem : v ∈ (v₀ :: rest).erase w := (List.mem_erase_of_ne hvw).mpr hv
          by_cases huw : u = w
          · subst huw
            rw [List.indexOf_cons_self]
            rw [List.indexOf_cons_ne _ (fun hh => hvw hh.symm)]
            exact Nat.succ_pos _
          · have humem : u ∈ (v₀ :: rest).erase w := (List.mem_erase_of_ne huw).mpr hu
            have hlt := ih _ l' hl' u v he humem hvmem
            rw [List.indexOf_cons_ne _ (fun hh => huw hh.symm),
                List.indexOf_cons_ne _ (fun hh => hvw hh.symm)]
            omega

theorem exists_f_max (f : String → Nat) :
    ∀ (l : List String), l ≠ [] → ∃ m ∈ l, ∀ x ∈ l, f x ≤ f m := by
  intro l
  induction l with
  | nil => intro h; exact absurd rfl h
  | cons a t ih =>
    intro _
    cases t with
    | nil =>
      refine ⟨a, List.mem_cons_self a [], fun x hx => ?_⟩
      rcases List.mem_cons.mp hx with rfl | hx
      · exact Nat.le_refl _
      · cases hx
    | cons b t' =>
      obtain ⟨m, hm, hmax⟩ := ih (by simp)
      by_cases hc : f a ≤ f m
      · refine ⟨m, List.mem_cons_of_mem a hm, fun x hx => ?_⟩
        rcases List.mem_cons.mp hx with rfl | hx
        · exact hc
        · exact hmax x hx
      · refine ⟨a, List.mem_cons_self a _, fun x hx => ?_⟩
        rcases List.mem_cons.mp hx with rfl | hx
        · exact Nat.le_refl _
        · exact Nat.le_trans (hmax x hx) (Nat.le_of_not_le hc)

theorem kahnAux_isSome (edges : List (String × String)) (f : String → Nat) :
    ∀ (n : Nat) (rem : List String), rem.length ≤ n →
      (∀ u v, (u, v) ∈ edges → u ∈ rem → v ∈ rem → f v < f u) →
      (kahnAux edges n rem).isSome := by
  intro n
  induction n with
  | zero =>
    intro rem hlen _
    cases rem with
    | nil => simp [kahnAux]
    | cons a t => simp at hlen
  | succ n ih =>
    intro rem hlen hf
    cases rem with
    | nil => simp [kahnAux]
    | cons v₀ rest =>
      rw [kahnAux]
      have hne : (v₀ :: rest) ≠ [] := by simp
      obtain ⟨m, hm, hmax⟩ := exists_f_max f (v₀ :: rest) hne
      have hready : readyNode edges (v₀ :: rest) m = true := by
        cases hh : hasIncoming edges (v₀ :: rest) m
        · rw [readyNode, hh]; rfl
        · exfalso
          rw [hasIncoming, List.any_eq_true] at hh
          obtain ⟨e, he, hcond⟩ := hh
          simp at hcond
          obtain ⟨h2, h1⟩ := hcond
          have h1' : e.1 ∈ v₀ :: rest := List.mem_cons.mpr h1
          have hlt : f e.2 < f e.1 := hf e.1 e.2 (by simpa using he) h1' (h2 ▸ hm)
          have hle : f e.1 ≤ f m := hmax e.1 h1'
          rw [h2] at hlt
          omega
      have hfound : ((v₀ :: rest).find? (readyNode edges (v₀ :: rest))).isSome := by
        rw [List.find?_isSome]
        exact ⟨m, hm, hready⟩
      obtain ⟨w, hw⟩ := Option.isSome_iff_exists.mp hfound
      rw [hw]
      have hwmem : w ∈ v₀ :: rest := List.mem_of_find?_eq_some hw
      have hrec : (kahnAux edges n ((v₀ :: rest).erase w)).isSome := by
        apply ih
        · rw [List.length_erase_of_mem hwmem]
          simp only [List.length_cons] at hlen ⊢
          omega
        · intro u v he hu hv
          exact hf u v he (List.mem_of_mem_erase hu) (List.mem_of_mem_erase hv)
      obtain ⟨x, hx⟩ := Option.isSome_iff_exists.mp hrec
      show (Option.map (fun l => w :: l) (kahnAux edges n ((v₀ :: rest).erase w))).isSome = true
      rw [hx]
      rfl

/-! ## Claims about the version check (C10, C4) -/

/-- C10: with version validation enabled, an imported document that
declares no version value at all is always accepted by the version
compatibility check, whatever version the root document declares; the
check can only fail for imports that declare a version (the contrapositive
of the statement below: a failing check implies a declared version). -/
theorem C10_undeclared_version_always_accepted :
    ∀ (dslVersion importUrl : String),
      validate_version dslVersion importUrl none = .ok () :=
  fun _ _ => rfl

/-- C4 counterexample: the claim asserts that an import declaring `v2_0`
under a root declaring `v2` is accepted, but `_validate_version` compares
the root version against the import's version with `_0` *appended*
(`'{0}_0'.format(...)`), so `v2_0` under `v2` fails with the
incompatible-version error. -/
theorem C4_counterexample_v2_0_under_v2_rejected :
    validate_version "v2" "some_import" (some "v2_0") =
      .error (.incompatible "v2" "some_import" "v2_0") := by
  rfl

/-- C4 amended: with version validation enabled, an import that declares a
version is accepted exactly when the declared version equals the root's
version or the declared version with `_0` appended equals the root's
version (equivalently: when the declared version is the root's version
with a trailing `_0` suffix removed); in particular `v1` under root `v2`
fails, and `v2` under a root declaring `v2_0` is accepted. -/
theorem C4_amended_version_rule :
    (∀ (dslVersion importUrl v : String),
        validate_version dslVersion importUrl (some v) = .ok () ↔
          (v = dslVersion ∨ v ++ "_0" = dslVersion))
    ∧ validate_version "v2" "imp" (some "v1") =
        .error (.incompatible "v2" "imp" "v1")
    ∧ validate_version "v2_0" "imp" (some "v2") = .ok () := by
  refine ⟨?_, rfl, rfl⟩
  intro dsl url v
  show (if v ≠ dsl ∧ v ++ "_0" ≠ dsl then
          (Except.error (VersionErr.incompatible dsl url v) : Except VersionErr Unit)
        else .ok ()) = .ok () ↔ (v = dsl ∨ v ++ "_0" = dsl)
  constructor
  · intro h
    by_contra hc
    push_neg at hc
    rw [if_pos ⟨hc.1, hc.2⟩] at h
    simp at h
  · intro h
    rcases h with h | h
    · rw [if_neg (fun hh => hh.1 h)]
    · rw [if_neg (fun hh => hh.2 h)]

/-! ## Claims about the merge step (C1, C5, C7) -/

/-- C1 counterexample: root declares `timeout: 10` and an import declares
`timeout: 20`; the claim asserts the merge succeeds with `timeout: 10`,
but `merge_parsed_into_combined` reaches `assert_mergeable`, which raises
the non-mergeable-field error (`DSLParsingLogicException` code 3). -/
theorem C1_counterexample_override_conflict_fails :
    combine_imports [(VERSION, .str "v1"), ("timeout", .str "10")]
      [[(VERSION, .str "v1"), ("timeout", .str "10")],
       [("timeout", .str "20")]] =
      .error (.nonMergeableField "timeout") := by
  rfl

/-- C1 amended: during import merging, for a top-level key outside the
no-override sections and outside the ignore sections: if the key is absent
from the accumulator the imported value is adopted, and if the key is
already present the merge *fails* with the non-mergeable-field error
(`DSLParsingLogicException` code 3) naming the key — the imported value is
not silently discarded. -/
theorem C1_amended_override_conflict_raises :
    ∀ (acc : DocMap) (k : String) (v : YVal),
      k ∉ IGNORE → k ∉ MERGE_NO_OVERRIDE →
      (k ∉ keysOf acc →
        merge_parsed_into_combined acc [(k, v)] = .ok (acc ++ [(k, v)])) ∧
      (k ∈ keysOf acc →
        merge_parsed_into_combined acc [(k, v)] = .error (.nonMergeableField k)) := by
  intro acc k v hig hnov
  constructor
  · intro habs
    simp [merge_parsed_into_combined, mergeEntries, hig, hnov, habs]
  · intro hpres
    simp [merge_parsed_into_combined, mergeEntries, hig, hnov, hpres]

/-- Witness for the amended C1: both branches realized on concrete
documents. -/
theorem C1_amended_witness :
    merge_parsed_into_combined [] [("timeout", YVal.str "20")] =
      .ok [("timeout", YVal.str "20")] ∧
    merge_parsed_into_combined [("timeout", YVal.str "10")]
      [("timeout", YVal.str "20")] = .error (.nonMergeableField "timeout") :=
  ⟨by
    have h := (C1_amended_override_conflict_raises [] "timeout"
      (YVal.str "20") (by decide) (by decide)).1 (by decide)
    simpa using h,
   (C1_amended_override_conflict_raises [("timeout", YVal.str "10")] "timeout"
      (YVal.str "20") (by decide) (by decide)).2 (by decide)⟩

/-- The no-override sections and the ignore sections are disjoint. -/
theorem no_override_not_ignored :
    ∀ s ∈ MERGE_NO_OVERRIDE, s ∉ IGNORE := by decide

/-- Disjoint key sets make `_merge_into_dict_or_throw_on_duplicate` a
key-wise union, appending the imported entries after the accumulated
ones. -/
theorem merge_into_dict_union (sec : String) :
    ∀ (fromD toD : List (String × YVal)),
      (keysOf fromD).Nodup →
      (∀ k ∈ keysOf fromD, k ∉ keysOf toD) →
      merge_into_dict_or_throw_on_duplicate sec fromD toD =
        .ok (toD ++ fromD) := by
  intro fromD
  induction fromD with
  | nil => intro toD _ _; simp [merge_into_dict_or_throw_on_duplicate]
  | cons e rest ih =>
    intro toD hnodup hdisj
    obtain ⟨k, v⟩ := e
    have hk : k ∉ keysOf toD := hdisj k (List.mem_cons_self k _)
    rw [merge_into_dict_or_throw_on_duplicate, if_neg hk]
    have hcons := List.nodup_cons.mp (show (k :: keysOf rest).Nodup from hnodup)
    have hdisj' : ∀ k' ∈ keysOf rest, k' ∉ keysOf (toD ++ [(k, v)]) := by
      intro k' hk' hmem
      rw [keysOf_append] at hmem
      rcases List.mem_append.mp hmem with hmem | hmem
      · exact hdisj k' (List.mem_cons_of_mem k hk') hmem
      · rcases List.mem_singleton.mp hmem with rfl
        exact hcons.1 hk'
    rw [ih (toD ++ [(k, v)]) hcons.2 hdisj']
    simp

/-- A key shared between the imported section and the accumulated section
makes `_merge_into_dict_or_throw_on_duplicate` fail with the conflict
error naming that key. -/
theorem merge_into_dict_conflict (sec : String) :
    ∀ (fromD toD : List (String × YVal)),
      (keysOf fromD).Nodup →
      (∃ k, k ∈ keysOf fromD ∧ k ∈ keysOf toD) →
      ∃ k, k ∈ keysOf fromD ∧ k ∈ keysOf toD ∧
        merge_into_dict_or_throw_on_duplicate sec fromD toD =
          .error (.conflict sec k) := by
  intro fromD
  induction fromD with
  | nil => intro toD _ h; obtain ⟨k, hk, _⟩ := h; cases hk
  | cons e rest ih =>
    intro toD hnodup hex
    obtain ⟨k, v⟩ := e
    by_cases hk : k ∈ keysOf toD
    · exact ⟨k, List.mem_cons_self k _, hk, by
        rw [merge_into_dict_or_throw_on_duplicate, if_pos hk]⟩
    · have hcons := List.nodup_cons.mp (show (k :: keysOf rest).Nodup from hnodup)
      obtain ⟨k0, hk0from, hk0to⟩ := hex
      have hk0ne : k0 ≠ k := fun hh => hk (hh ▸ hk0to)
      have hk0rest : k0 ∈ keysOf rest := by
        rcases List.mem_cons.mp (show k0 ∈ k :: keysOf rest from hk0from) with hh | hh
        · exact absurd hh hk0ne
        · exact hh
      have hex' : ∃ k', k' ∈ keysOf rest ∧ k' ∈ keysOf (toD ++ [(k, v)]) :=
        ⟨k0, hk0rest, by rw [keysOf_append]; exact List.mem_append.mpr (Or.inl hk0to)⟩
      obtain ⟨k', h1, h2, h3⟩ := ih (toD ++ [(k, v)]) hcons.2 hex'
      have h2' : k' ∈ keysOf toD := by
        rw [keysOf_append] at h2
        rcases List.mem_append.mp h2 with hh | hh
        · exact hh
        · rcases List.mem_singleton.mp hh with rfl
          exact absurd h1 hcons.1
      exact ⟨k', List.mem_cons_of_mem k h1, h2', by
        rw [merge_into_dict_or_throw_on_duplicate, if_neg hk]; exact h3⟩

/-- C5: for every no-override section, merging performs a key-wise union
of the section's mapping; a key present in both the accumulator's section
and the newly merged document's section is a fatal duplicate-definition
error (`DSLParsingLogicException` code 4) naming the section and the
conflicting key; and merging either document alone (into an empty
accumulator) succeeds. -/
theorem C5_no_override_union_or_conflict :
    ∀ (s : String) (m1 m2 : List (String × YVal)) (acc : DocMap),
      s ∈ MERGE_NO_OVERRIDE →
      (keysOf m2).Nodup →
      lookupKey acc s = some (.map m1) →
      ((∀ k ∈ keysOf m2, k ∉ keysOf m1) →
         merge_parsed_into_combined acc [(s, .map m2)] =
           .ok (replaceEntry acc s (.map (m1 ++ m2)))) ∧
      ((∃ k, k ∈ keysOf m2 ∧ k ∈ keysOf m1) →
         ∃ k, k ∈ keysOf m2 ∧ k ∈ keysOf m1 ∧
           merge_parsed_into_combined acc [(s, .map m2)] =
             .error (.conflict s k)) ∧
      (∀ d : List (String × YVal),
         merge_parsed_into_combined [] [(s, .map d)] = .ok [(s, .map d)]) := by
  intro s m1 m2 acc hs hnodup hlook
  have hsig : s ∉ IGNORE := no_override_not_ignored s hs
  have hsacc : s ∈ keysOf acc := lookupKey_mem_keysOf acc s _ hlook
  refine ⟨?_, ?_, ?_⟩
  · intro hdisj
    have hmerge := merge_into_dict_union s m2 m1 hnodup hdisj
    simp [merge_parsed_into_combined, mergeEntries, hsig, hsacc, hs, hlook,
      hmerge]
  · intro hex
    obtain ⟨k, h1, h2, h3⟩ := merge_into_dict_conflict s m2 m1 hnodup hex
    exact ⟨k, h1, h2, by
      simp [merge_parsed_into_combined, mergeEntries, hsig, hsacc, hs, hlook,
        h3]⟩
  · intro d
    simp [merge_parsed_into_combined, mergeEntries, hsig, keysOf]

/-- Witness for C5: a disjoint union succeeds, a shared key `a` fails with
the conflict error. -/
theorem C5_no_override_witness :
    merge_parsed_into_combined [(NODE_TYPES, YVal.map [("a", YVal.str "1")])]
        [(NODE_TYPES, YVal.map [("b", YVal.str "2")])] =
      .ok [(NODE_TYPES, YVal.map [("a", YVal.str "1"), ("b", YVal.str "2")])] ∧
    (∃ k, k ∈ keysOf [("a", YVal.str "2")] ∧ k ∈ keysOf [("a", YVal.str "1")] ∧
      merge_parsed_into_combined [(NODE_TYPES, YVal.map [("a", YVal.str "1")])]
          [(NODE_TYPES, YVal.map [("a", YVal.str "2")])] =
        .error (.conflict NODE_TYPES k)) := by
  constructor
  · have h := (C5_no_override_union_or_conflict NODE_TYPES
      [("a", YVal.str "1")] [("b", YVal.str "2")]
      [(NODE_TYPES, YVal.map [("a", YVal.str "1")])]
      (by decide) (by decide) rfl).1 (by decide)
    exact h
  · exact (C5_no_override_union_or_conflict NODE_TYPES
      [("a", YVal.str "1")] [("a", YVal.str "2")]
      [(NODE_TYPES, YVal.map [("a", YVal.str "1")])]
      (by decide) (by decide) rfl).2.1 ⟨"a", by decide, by decide⟩

/-- Unfolding equation for `mergeEntries` on a cons cell. -/
theorem mergeEntries_cons (acc : DocMap) (k0 : String) (v0 : YVal)
    (rest : List (String × YVal)) :
    mergeEntries acc ((k0, v0) :: rest) =
      if k0 ∈ IGNORE then mergeEntries acc rest
      else if k0 ∈ keysOf acc then
        if k0 ∈ MERGE_NO_OVERRIDE then
          match lookupKey acc k0, v0 with
          | some (.map toDict), .map fromDict =>
            (match merge_into_dict_or_throw_on_duplicate k0 fromDict toDict with
             | .ok merged => mergeEntries (replaceEntry acc k0 (.map merged)) rest
             | .error e => .error e)
          | _, _ => .error (.notAMapping k0)
        else .error (.nonMergeableField k0)
      else mergeEntries (acc ++ [(k0, v0)]) rest := rfl

/-- Inversion for a successful `mergeEntries` step: the head entry was
skipped (ignore section), adopted (absent key), or key-wise merged
(no-override section); any other configuration raises. -/
theorem mergeEntries_cons_ok_inv
    (acc acc' : DocMap) (k0 : String) (v0 : YVal)
    (rest : List (String × YVal))
    (h : mergeEntries acc ((k0, v0) :: rest) = .ok acc') :
    (k0 ∈ IGNORE ∧ mergeEntries acc rest = .ok acc') ∨
    (k0 ∉ IGNORE ∧ k0 ∉ keysOf acc ∧
      mergeEntries (acc ++ [(k0, v0)]) rest = .ok acc') ∨
    (k0 ∉ IGNORE ∧ k0 ∈ keysOf acc ∧ k0 ∈ MERGE_NO_OVERRIDE ∧
      ∃ toDict fromDict merged,
        lookupKey acc k0 = some (.map toDict) ∧ v0 = .map fromDict ∧
        merge_into_dict_or_throw_on_duplicate k0 fromDict toDict = .ok merged ∧
        mergeEntries (replaceEntry acc k0 (.map merged)) rest = .ok acc') := by
  rw [mergeEntries_cons] at h
  by_cases h0 : k0 ∈ IGNORE
  · rw [if_pos h0] at h
    exact Or.inl ⟨h0, h⟩
  · rw [if_neg h0] at h
    by_cases h1 : k0 ∈ keysOf acc
    · rw [if_pos h1] at h
      by_cases h2 : k0 ∈ MERGE_NO_OVERRIDE
      · rw [if_pos h2] at h
        refine Or.inr (Or.inr ⟨h0, h1, h2, ?_⟩)
        cases hl : lookupKey acc k0 with
        | none => rw [hl] at h; cases v0 <;> simp at h
        | some lv =>
          rw [hl] at h
          cases lv with
          | str s => cases v0 <;> simp at h
          | list xs => cases v0 <;> simp at h
          | map toDict =>
            cases v0 with
            | str s => simp at h
            | list xs => simp at h
            | map fromDict =>
              have hmatch :
                  (match merge_into_dict_or_throw_on_duplicate k0 fromDict toDict with
                   | .ok merged =>
                     mergeEntries (replaceEntry acc k0 (.map merged)) rest
                   | .error e => (.error e : Except MergeErr DocMap)) = .ok acc' := h
              cases hm : merge_into_dict_or_throw_on_duplicate k0 fromDict toDict with
              | ok merged =>
                rw [hm] at hmatch
                simp only [] at hmatch
                exact ⟨toDict, fromDict, merged, rfl, rfl, hm, hmatch⟩
              | error e =>
                rw [hm] at hmatch
                simp at hmatch
      · rw [if_neg h2] at h
        exact absurd h (by simp)
    · rw [if_neg h1] at h
      exact Or.inr (Or.inl ⟨h0, h1, h⟩)

/-- An ignore-section key absent from the accumulator stays absent through
one `merge_parsed_into_combined` pass: the ignore branch skips it, and the
other branches only add non-ignored keys or replace existing ones. -/
theorem mergeEntries_ignored_absent :
    ∀ (l : List (String × YVal)) (acc acc' : DocMap) (k : String),
      k ∈ IGNORE → k ∉ keysOf acc → mergeEntries acc l = .ok acc' →
      k ∉ keysOf acc' := by
  intro l
  induction l with
  | nil =>
    intro acc acc' k _ hknot h
    simp only [mergeEntries, Except.ok.injEq] at h
    exact h ▸ hknot
  | cons e rest ih =>
    intro acc acc' k hkig hknot h
    obtain ⟨k0, v0⟩ := e
    rcases mergeEntries_cons_ok_inv acc acc' k0 v0 rest h with
      ⟨h0, hrec⟩ | ⟨h0, h1, hrec⟩ |
      ⟨h0, h1, h2, toDict, fromDict, merged, hl, hv, hm, hrec⟩
    · exact ih acc acc' k hkig hknot hrec
    · refine ih _ acc' k hkig ?_ hrec
      rw [keysOf_append]
      intro hmem
      rcases List.mem_append.mp hmem with hmem | hmem
      · exact hknot hmem
      · rcases List.mem_singleton.mp hmem with rfl
        exact h0 hkig
    · exact ih _ acc' k hkig (by rw [keysOf_replaceEntry]; exact hknot) hrec

/-- The previous invariant, carried through the whole ordered fold. -/
theorem combineDocs_ignored_absent :
    ∀ (ds : List DocMap) (acc acc' : DocMap) (k : String),
      k ∈ IGNORE → k ∉ keysOf acc → combineDocs acc ds = .ok acc' →
      k ∉ keysOf acc' := by
  intro ds
  induction ds with
  | nil =>
    intro acc acc' k _ hknot h
    simp only [combineDocs, Except.ok.injEq] at h
    exact h ▸ hknot
  | cons d rest ih =>
    intro acc acc' k hkig hknot h
    rw [combineDocs] at h
    split at h
    · rename_i acc1 hstep
      exact ih acc1 acc' k hkig
        (mergeEntries_ignored_absent d acc acc1 k hkig hknot hstep) h
    · exact absurd h (by simp)

/-- C7: for every merge pass, the ignore sections of imported documents
never appear in the merged result, and the merged result's version
key/value pair equals the root document's version key/value pair unchanged
(stripped before merging, re-attached at the end).  The Document Holder's
item lookup is the spec's given primitive. -/
theorem C7_ignored_sections_dropped_version_reattached :
    ∀ (root : DocMap) (ordered : List DocMap) (v : YVal) (res : DocMap),
      lookupKey root VERSION = some v →
      combine_imports root ordered = .ok res →
      lookupKey res VERSION = some v ∧
      IMPORTS ∉ keysOf res ∧ DSL_DEFINITIONS ∉ keysOf res := by
  intro root ordered v res hver hcomb
  rw [combine_imports] at hcomb
  split at hcomb
  · exact absurd hcomb (by simp)
  · rename_i merged hmergedEq
    rw [hver] at hcomb
    simp only [Except.ok.injEq] at hcomb
    have hVER : VERSION ∉ keysOf merged :=
      combineDocs_ignored_absent ordered [] merged VERSION (by decide)
        (by simp [keysOf]) hmergedEq
    have hIM : IMPORTS ∉ keysOf merged :=
      combineDocs_ignored_absent ordered [] merged IMPORTS (by decide)
        (by simp [keysOf]) hmergedEq
    have hDSL : DSL_DEFINITIONS ∉ keysOf merged :=
      combineDocs_ignored_absent ordered [] merged DSL_DEFINITIONS (by decide)
        (by simp [keysOf]) hmergedEq
    have hres : res = merged ++ [(VERSION, v)] := by
      rw [← hcomb, setEntry, if_neg hVER]
    subst hres
    refine ⟨lookupKey_append_right merged VERSION v hVER, ?_, ?_⟩
    · rw [keysOf_append]
      intro hmem
      rcases List.mem_append.mp hmem with hmem | hmem
      · exact hIM hmem
      · simp [keysOf] at hmem
        exact absurd hmem (by decide)
    · rw [keysOf_append]
      intro hmem
      rcases List.mem_append.mp hmem with hmem | hmem
      · exact hDSL hmem
      · simp [keysOf] at hmem
        exact absurd hmem (by decide)

/-- Witness for C7: a root with one import whose ignore sections disappear
while the root's version survives unchanged. -/
theorem C7_witness :
    lookupKey [("x", YVal.str "1"), ("y", YVal.str "2"),
        (VERSION, YVal.str "v1")] VERSION = some (YVal.str "v1") ∧
    IMPORTS ∉ keysOf [("x", YVal.str "1"), ("y", YVal.str "2"),
        (VERSION, YVal.str "v1")] ∧
    DSL_DEFINITIONS ∉ keysOf [("x", YVal.str "1"), ("y", YVal.str "2"),
        (VERSION, YVal.str "v1")] :=
  C7_ignored_sections_dropped_version_reattached
    [(VERSION, YVal.str "v1"), ("x", YVal.str "1")]
    [[(VERSION, YVal.str "v1"), ("x", YVal.str "1")],
     [(IMPORTS, YVal.list []), (DSL_DEFINITIONS, YVal.map []),
      (VERSION, YVal.str "v1"), ("y", YVal.str "2")]]
    (YVal.str "v1") _ rfl rfl

/-! ## Claims about data types (C8, C9) -/

/-- Folding unions over a list commutes with `insert` on the base. -/
theorem foldr_union_insert (X : String → Finset String) :
    ∀ (l : List String) (t : String) (b : Finset String),
      l.foldr (fun c acc => X c ∪ acc) (insert t b) =
        insert t (l.foldr (fun c acc => X c ∪ acc) b) := by
  intro l t b
  induction l with
  | nil => rfl
  | cons c rest ih => simp [List.foldr_cons, ih, Finset.union_insert]

/-- C8 counterexample: a data type `T` with no parent and no properties.
The claim describes the component-type set as the set of *other* data
types appearing transitively in `T`'s schema or parent chain — empty here
— but `DataType.parse` ends with `self.component_types[self.name] =
result` (data_types.py line 172), so the computed set is `{T}`. -/
theorem C8_counterexample_self_included :
    dataTypeComponentKeys soloTypeReg 1 "T" = {"T"} ∧
    specComponentClosure soloTypeReg 1 "T" = ∅ ∧
    dataTypeComponentKeys soloTypeReg 1 "T" ≠
      specComponentClosure soloTypeReg 1 "T" := by
  refine ⟨?_, ?_, ?_⟩ <;> decide

/-- C8 amended: for every data type `T`, `T`'s computed component-type set
is `T`'s own name together with the set of other data types, by name,
appearing transitively in `T`'s property schema or parent chain (the union
of every data type named as the type of a direct property, `T`'s parent
type name if any, and transitively the component types of those types).
The fuel index bounds the recursion depth shared by both sides. -/
theorem C8_amended_component_types :
    ∀ (reg : List (String × DataTypeDecl)) (n : Nat) (t : String),
      dataTypeComponentKeys reg n t =
        insert t (specComponentClosure reg n t) := by
  intro reg n
  induction n with
  | zero =>
    intro t
    simp [dataTypeComponentKeys, specComponentClosure]
  | succ n ih =>
    intro t
    rw [dataTypeComponentKeys, specComponentClosure]
    cases hl : lookupType reg t with
    | none => simp
    | some d =>
      simp only [ih]
      rw [← Finset.insert_empty]
      exact foldr_union_insert _ (matchedComponents reg d) t ∅

/-- C9: for every schema property with no declared default, the effective
default is absent from the parsed property unless the property's type is a
user-defined (non-primitive) type, in which case the effective default is
the empty structured value of that type derived against the component
types in scope. -/
theorem C9_schema_property_default :
    ∀ (reg : List (String × DataTypeDecl)) (fuel : Nat) (decl : PropDecl)
      (withInit : Bool),
      decl.default = none →
      ((decl.type = none →
         (schemaProperty_parse reg fuel decl withInit).default = none) ∧
       (∀ t, decl.type = some t → t ∈ USER_PRIMITIVE_TYPES →
         (schemaProperty_parse reg fuel decl withInit).default = none) ∧
       (∀ t, decl.type = some t → t ∉ USER_PRIMITIVE_TYPES →
         (schemaProperty_parse reg fuel decl withInit).default =
           some (parse_value reg fuel (some t) (.map [])))) := by
  intro reg fuel decl withInit hdef
  refine ⟨?_, ?_, ?_⟩
  · intro ht
    simp [schemaProperty_parse, schemaPropertyDefault_parse, hdef, ht]
  · intro t ht hprim
    simp [schemaProperty_parse, schemaPropertyDefault_parse, hdef, ht, hprim]
  · intro t ht hprim
    simp [schemaProperty_parse, schemaPropertyDefault_parse, hdef, ht, hprim]

/-- Witness for C9: the three branches realized on concrete property
declarations (a data-type-typed property, a primitive-typed one, an
untyped one). -/
theorem C9_schema_property_default_witness :
    (schemaProperty_parse [("port", ⟨none, []⟩)] 3
        ⟨some "port", none, none, none⟩ true).default =
      some (parse_value [("port", ⟨none, []⟩)] 3 (some "port") (.map [])) ∧
    (schemaProperty_parse [] 3
        ⟨some "string", none, none, none⟩ true).default = none ∧
    (schemaProperty_parse [] 3 ⟨none, none, none, none⟩ true).default = none :=
  ⟨(C9_schema_property_default [("port", ⟨none, []⟩)] 3
      ⟨some "port", none, none, none⟩ true rfl).2.2 "port" rfl (by decide),
   (C9_schema_property_default [] 3
      ⟨some "string", none, none, none⟩ true rfl).2.1 "string" rfl (by decide),
   (C9_schema_property_default [] 3
      ⟨none, none, none, none⟩ true rfl).1 rfl⟩

/-! ## Claims about the imports graph ordering (C2) -/

theorem indexOf_reverse_of_nodup (l : List String) (hnd : l.Nodup)
    (a : String) (ha : a ∈ l) :
    l.reverse.indexOf a = l.length - 1 - l.indexOf a := by
  have hi : l.indexOf a < l.length := List.indexOf_lt_length.mpr ha
  have har : a ∈ l.reverse := List.mem_reverse.mpr ha
  have hj : l.reverse.indexOf a < l.reverse.length :=
    List.indexOf_lt_length.mpr har
  have hjl : l.reverse.indexOf a < l.length := by simpa using hj
  have h1 : l.reverse[l.reverse.indexOf a] = a := List.getElem_indexOf hj
  rw [List.getElem_reverse] at h1
  have h2 : l[l.indexOf a] = a := List.getElem_indexOf hi
  have heqidx := hnd.getElem_inj_iff.mp (h1.trans h2.symm)
  omega

theorem reverse_indexOf_flip (l : List String) (hnd : l.Nodup) (a b : String)
    (ha : a ∈ l) (hb : b ∈ l) (hab : l.indexOf a < l.indexOf b) :
    l.reverse.indexOf b < l.reverse.indexOf a := by
  rw [indexOf_reverse_of_nodup l hnd a ha, indexOf_reverse_of_nodup l hnd b hb]
  have hia : l.indexOf a < l.length := List.indexOf_lt_length.mpr ha
  have hib : l.indexOf b < l.length := List.indexOf_lt_length.mpr hb
  omega

theorem lookupDoc_isSome_of_mem :
    ∀ (nodes : List (String × DocMap)) (u : String),
      u ∈ nodes.map Prod.fst → ∃ d, lookupDoc nodes u = some d := by
  intro nodes
  induction nodes with
  | nil => intro u h; cases h
  | cons e rest ih =>
    intro u h
    obtain ⟨k', v'⟩ := e
    by_cases hk : k' = u
    · exact ⟨v', by rw [lookupDoc, if_pos hk]⟩
    · rcases List.mem_cons.mp h with hh | hh
      · exact absurd hh.symm hk
      · obtain ⟨d, hd⟩ := ih u hh
        exact ⟨d, by rw [lookupDoc, if_neg hk]; exact hd⟩

theorem filterMap_pairs_map_fst :
    ∀ (nodes : List (String × DocMap)) (us : List String),
      (∀ u ∈ us, u ∈ nodes.map Prod.fst) →
      ((us.filterMap fun u => (lookupDoc nodes u).map fun d => (u, d)).map
        Prod.fst) = us := by
  intro nodes us
  induction us with
  | nil => intro _; rfl
  | cons u rest ih =>
    intro hall
    obtain ⟨d, hd⟩ :=
      lookupDoc_isSome_of_mem nodes u (hall u (List.mem_cons_self u _))
    simp [List.filterMap_cons, hd,
      ih (fun x hx => hall x (List.mem_cons_of_mem u hx))]

theorem filterMap_pairs_lookup :
    ∀ (nodes : List (String × DocMap)) (us : List String) (e : String × DocMap),
      e ∈ us.filterMap (fun u => (lookupDoc nodes u).map fun d => (u, d)) →
      lookupDoc nodes e.1 = some e.2 := by
  intro nodes us e he
  rcases List.mem_filterMap.mp he with ⟨u, _, hu⟩
  rcases Option.map_eq_some'.mp hu with ⟨d, hd, heq⟩
  cases heq
  exact hd

/-- What a successful `topological_sort` returns: a permutation of the
registered keys, each paired with its registered document. -/
theorem topological_sort_ok_spec (g : ImportsGraph)
    (l : List (String × DocMap)) (h : g.topological_sort = .ok l) :
    (l.map Prod.fst).Perm g.keys ∧
    (∀ e ∈ l, lookupDoc g.nodes e.1 = some e.2) := by
  rw [ImportsGraph.topological_sort] at h
  cases hk : kahnSort g.treeEdges g.keys with
  | none => rw [hk] at h; simp at h
  | some order =>
    rw [hk] at h
    simp only [Except.ok.injEq] at h
    have hperm : order.Perm g.keys := kahnAux_perm _ _ _ _ hk
    have hmemrev : ∀ u ∈ order.reverse, u ∈ g.nodes.map Prod.fst := by
      intro u hu
      exact hperm.mem_iff.mp (List.mem_reverse.mp hu)
    have hmapfst := filterMap_pairs_map_fst g.nodes order.reverse hmemrev
    constructor
    · rw [← h, hmapfst]
      exact (List.reverse_perm order).trans hperm
    · intro e he
      rw [← h] at he
      exact filterMap_pairs_lookup g.nodes order.reverse e he

/-- Ordering property of a successful `topological_sort` over a
duplicate-free graph: along every tree edge, the importing document is
listed before the imported one — the root first, the deepest imports
last. -/
theorem topological_sort_ok_before (g : ImportsGraph)
    (l : List (String × DocMap)) (hnd : g.keys.Nodup)
    (h : g.topological_sort = .ok l) :
    ∀ u via, (u, via) ∈ g.treeEdges → u ∈ g.keys → via ∈ g.keys →
      (l.map Prod.fst).indexOf via < (l.map Prod.fst).indexOf u := by
  rw [ImportsGraph.topological_sort] at h
  cases hk : kahnSort g.treeEdges g.keys with
  | none => rw [hk] at h; simp at h
  | some order =>
    rw [hk] at h
    simp only [Except.ok.injEq] at h
    have hperm : order.Perm g.keys := kahnAux_perm _ _ _ _ hk
    have hmemrev : ∀ u ∈ order.reverse, u ∈ g.nodes.map Prod.fst := by
      intro u hu
      exact hperm.mem_iff.mp (List.mem_reverse.mp hu)
    have hmapfst := filterMap_pairs_map_fst g.nodes order.reverse hmemrev
    intro u via he hu hv
    have hnodup_order : order.Nodup := hperm.nodup_iff.mpr hnd
    have hbefore := kahnAux_before g.treeEdges _ g.keys order hk u via he hu hv
    have huo : u ∈ order := hperm.mem_iff.mpr hu
    have hvo : via ∈ order := hperm.mem_iff.mpr hv
    rw [← h, hmapfst]
    exact reverse_indexOf_flip order hnodup_order u via huo hvo hbefore

/-- C2 counterexample: a root that imports A.  The claim requires every
document to appear *after* the documents it depends on (deepest first,
root last), so A should precede the root; but `topological_sort` reverses
the underlying topological order, so the computed merge order lists the
root first, then A. -/
theorem C2_counterexample_root_listed_first :
    chainGraph.topological_sort =
      .ok [("root", chainRoot), ("A", chainDocA)] ∧
    ("A", "root") ∈ chainGraph.treeEdges := by
  exact ⟨rfl, by decide⟩

/-- C2 amended: for every registered imports graph with distinct keys
whose ordering succeeds, the ordering returns all registered documents
(a permutation of the keys, each carrying its registered document) in an
order where every document appears *before* all documents that depend on
it via the first-discovery tree: the root comes first and the deepest
ones last, and the merge then processes imports in exactly that
order. -/
theorem C2_amended_order_root_first :
    ∀ (g : ImportsGraph) (l : List (String × DocMap)),
      g.keys.Nodup →
      g.topological_sort = .ok l →
      (l.map Prod.fst).Perm g.keys ∧
      (∀ e ∈ l, lookupDoc g.nodes e.1 = some e.2) ∧
      (∀ u via, (u, via) ∈ g.treeEdges → u ∈ g.keys → via ∈ g.keys →
        (l.map Prod.fst).indexOf via < (l.map Prod.fst).indexOf u) := by
  intro g l hnd h
  obtain ⟨hperm, hlook⟩ := topological_sort_ok_spec g l h
  exact ⟨hperm, hlook, topological_sort_ok_before g l hnd h⟩

/-- Witness for the amended C2, on the root-imports-A chain. -/
theorem C2_amended_order_witness :
    (([("root", chainRoot), ("A", chainDocA)].map Prod.fst).Perm
      chainGraph.keys) ∧
    (∀ e ∈ [("root", chainRoot), ("A", chainDocA)],
      lookupDoc chainGraph.nodes e.1 = some e.2) ∧
    (∀ u via, (u, via) ∈ chainGraph.treeEdges → u ∈ chainGraph.keys →
      via ∈ chainGraph.keys →
      (([("root", chainRoot), ("A", chainDocA)].map Prod.fst).indexOf via <
        ([("root", chainRoot), ("A", chainDocA)].map Prod.fst).indexOf u)) :=
  C2_amended_order_root_first chainGraph
    [("root", chainRoot), ("A", chainDocA)] (by decide) rfl

/-! ## Claims about the graph-building pass (C3, C6) -/

theorem indexOf_append_self (l : List String) (a : String) (h : a ∉ l) :
    (l ++ [a]).indexOf a = l.length := by
  induction l with
  | nil => simp [List.indexOf_cons_self]
  | cons b t ih =>
    have hab : a ≠ b := fun hh => h (hh ▸ List.mem_cons_self b t)
    rw [List.cons_append, List.indexOf_cons_ne _ (fun hh => hab hh.symm),
      ih (fun hm => h (List.mem_cons_of_mem b hm))]
    simp

/-- Registering a fresh url appends one node and one tree edge. -/
theorem add_fresh_spec (g : ImportsGraph) (url : String) (doc : DocMap)
    (via : String) (h : url ∉ g.keys) :
    (g.add url doc (some via)).nodes = g.nodes ++ [(url, doc)] ∧
    (g.add url doc (some via)).treeEdges = g.treeEdges ++ [(url, via)] := by
  constructor <;> simp [ImportsGraph.add, h]

theorem add_fresh_keys (g : ImportsGraph) (url : String) (doc : DocMap)
    (via : String) (h : url ∉ g.keys) :
    (g.add url doc (some via)).keys = g.keys ++ [url] := by
  show (g.add url doc (some via)).nodes.map Prod.fst = _
  rw [(add_fresh_spec g url doc via h).1]
  simp [ImportsGraph.keys]

/-- The graph-building invariant survives one `processRefs` pass, and the
registered keys only grow. -/
theorem processRefs_inv (rl : String → Option String)
    (fp : String → Option DocMap) :
    ∀ (n : Nat) (refs : List String) (curLoc : Option String)
      (st st' : BuildState),
      processRefs rl fp n refs curLoc st = .ok st' →
      BuildInv st → locationOf curLoc ∈ st.graph.keys →
      BuildInv st' ∧ (∀ u ∈ st.graph.keys, u ∈ st'.graph.keys) := by
  intro n
  induction n with
  | zero =>
    intro refs curLoc st st' h hinv hloc
    cases refs with
    | nil =>
      simp only [processRefs, Except.ok.injEq] at h
      subst h
      exact ⟨hinv, fun u hu => hu⟩
    | cons r rs => simp [processRefs] at h
  | succ n ih =>
    intro refs curLoc st st' h hinv hloc
    cases refs with
    | nil =>
      simp only [processRefs, Except.ok.injEq] at h
      subst h
      exact ⟨hinv, fun u hu => hu⟩
    | cons ref rest =>
      rw [processRefs] at h
      split at h
      · exact absurd h (by simp)
      · rename_i url hr
        split at h
        · rename_i hc
          exact ih rest curLoc
            ⟨st.graph.add_graph_dependency url (locationOf curLoc), st.fetched⟩
            st' h hinv hloc
        · rename_i hc
          split at h
          · exact absurd h (by simp)
          · rename_i doc hf
            have hurl : url ∉ st.graph.keys := hc
            obtain ⟨hnodes1, hedges1⟩ :=
              add_fresh_spec st.graph url doc (locationOf curLoc) hurl
            have hkeys1 :
                (st.graph.add url doc (some (locationOf curLoc))).keys =
                  st.graph.keys ++ [url] :=
              add_fresh_keys st.graph url doc (locationOf curLoc) hurl
            obtain ⟨hknd, hedg, hfnd, hfsub⟩ := hinv
            have hinv1 : BuildInv
                ⟨st.graph.add url doc (some (locationOf curLoc)),
                 st.fetched ++ [url]⟩ := by
              refine ⟨?_, ?_, ?_, ?_⟩
              · show (st.graph.add url doc (some (locationOf curLoc))).keys.Nodup
                rw [hkeys1]
                simp [List.nodup_append, hknd, hurl]
              · intro e he
                rw [show (st.graph.add url doc
                    (some (locationOf curLoc))).treeEdges =
                    st.graph.treeEdges ++ [(url, locationOf curLoc)] from
                    hedges1] at he
                rw [hkeys1]
                rcases List.mem_append.mp he with he | he
                · obtain ⟨h1, h2, h3⟩ := hedg e he
                  refine ⟨List.mem_append.mpr (Or.inl h1),
                    List.mem_append.mpr (Or.inl h2), ?_⟩
                  rw [List.indexOf_append_of_mem h2,
                    List.indexOf_append_of_mem h1]
                  exact h3
                · rcases List.mem_singleton.mp he with rfl
                  refine ⟨List.mem_append.mpr (Or.inr (List.mem_singleton_self url)),
                    List.mem_append.mpr (Or.inl hloc), ?_⟩
                  rw [List.indexOf_append_of_mem hloc,
                    indexOf_append_self _ _ hurl]
                  exact List.indexOf_lt_length.mpr hloc
              · have hunf : url ∉ st.fetched := fun hmem => hurl (hfsub url hmem)
                simp [List.nodup_append, hfnd, hunf]
              · intro u hu
                show u ∈ (st.graph.add url doc (some (locationOf curLoc))).keys
                rw [hkeys1]
                rcases List.mem_append.mp hu with hu | hu
                · exact List.mem_append.mpr (Or.inl (hfsub u hu))
                · rcases List.mem_singleton.mp hu with rfl
                  exact List.mem_append.mpr (Or.inr (List.mem_singleton_self _))
            split at h
            · exact absurd h (by simp)
            · rename_i stB hrec1
              have h2 : processRefs rl fp n rest curLoc stB = .ok st' := h
              have hloc1 : locationOf (some url) ∈
                  (st.graph.add url doc (some (locationOf curLoc))).keys := by
                rw [hkeys1]
                exact List.mem_append.mpr (Or.inr (List.mem_singleton_self url))
              obtain ⟨hinvB, hmono1⟩ :=
                ih (getImports doc) (some url) _ stB hrec1 hinv1 hloc1
              have hloc2 : locationOf curLoc ∈ stB.graph.keys :=
                hmono1 _ (by rw [hkeys1]; exact List.mem_append.mpr (Or.inl hloc))
              obtain ⟨hinvC, hmono2⟩ := ih rest curLoc stB st' h2 hinvB hloc2
              refine ⟨hinvC, fun u hu => hmono2 u (hmono1 u ?_)⟩
              rw [hkeys1]
              exact List.mem_append.mpr (Or.inl hu)

/-- `processRefs` can only fail for a missing location, a failed fetch, or
exhausted fuel — never with the cycle error. -/
theorem processRefs_error_ne_cycle (rl : String → Option String)
    (fp : String → Option DocMap) :
    ∀ (n : Nat) (refs : List String) (curLoc : Option String)
      (st : BuildState) (e : BuildErr),
      processRefs rl fp n refs curLoc st = .error e → e ≠ .cycle := by
  intro n
  induction n with
  | zero =>
    intro refs curLoc st e h
    cases refs with
    | nil => simp [processRefs] at h
    | cons r rs =>
      simp only [processRefs, Except.error.injEq] at h
      subst h
      simp
  | succ n ih =>
    intro refs curLoc st e h
    cases refs with
    | nil => simp [processRefs] at h
    | cons ref rest =>
      rw [processRefs] at h
      split at h
      · simp only [Except.error.injEq] at h
        subst h
        simp
      · rename_i url hr
        split at h
        · rename_i hc
          exact ih rest curLoc _ e h
        · rename_i hc
          split at h
          · simp only [Except.error.injEq] at h
            subst h
            simp
          · rename_i doc hf
            split at h
            · rename_i e' hrec1
              simp only [Except.error.injEq] at h
              subst h
              exact ih (getImports doc) (some url) _ _ hrec1
            · rename_i stB hrec1
              exact ih rest curLoc stB e h

/-- The invariant holds for the result of every successful build pass. -/
theorem buildPass_inv (rl : String → Option String)
    (fp : String → Option DocMap) (root : DocMap) (rootLoc : Option String)
    (fuel : Nat) (st : BuildState)
    (hb : buildPass rl fp root rootLoc fuel = .ok st) : BuildInv st := by
  have hinv0 : BuildInv
      ⟨ImportsGraph.empty.add (locationOf rootLoc) root none, []⟩ := by
    refine ⟨?_, ?_, ?_, ?_⟩
    · show ([locationOf rootLoc] : List String).Nodup
      simp
    · intro e he
      have he' : e ∈ ([] : List (String × String)) := he
      cases he'
    · simp
    · intro u hu
      cases hu
  have hloc0 : locationOf rootLoc ∈
      (ImportsGraph.empty.add (locationOf rootLoc) root none).keys := by
    show locationOf rootLoc ∈ [locationOf rootLoc]
    simp
  exact (processRefs_inv rl fp fuel (getImports root) rootLoc _ st hb hinv0
    hloc0).1

/-- C3 counterexample: the cyclic configuration root → A → B → A.  The
claim asserts the build fails with an `ImportCycle` error, but the
cycle-closing reference from B back to A only records a full-graph edge
(`add_graph_dependency`), the tree stays acyclic, and the build succeeds
with each document exactly once, root first. -/
theorem C3_counterexample_cycle_succeeds :
    build_ordered_imports cycResolve cycFetch cycRoot none 10 =
      .ok [("root", cycRoot), ("A", cycDocA), ("B", cycDocB)] := by
  rfl

/-- C3 amended: building the ordered imports never fails with the cycle
error, for any resolver, loader, root document and fuel: a re-encountered
url (as in any cyclic configuration) only records a full-graph
dependency and adds no tree edge, every tree edge points from a
later-registered document to an earlier-registered one, so the tree always
admits a topological order; the repository's code contains no ImportCycle
handler because the error cannot occur. -/
theorem C3_amended_no_cycle_error :
    ∀ (rl : String → Option String) (fp : String → Option DocMap)
      (root : DocMap) (rootLoc : Option String) (fuel : Nat),
      isCycleError (build_ordered_imports rl fp root rootLoc fuel) = false := by
  intro rl fp root rootLoc fuel
  cases hb : buildPass rl fp root rootLoc fuel with
  | error e =>
    have hne : e ≠ .cycle :=
      processRefs_error_ne_cycle rl fp fuel (getImports root) rootLoc _ e hb
    rw [build_ordered_imports, hb]
    cases e with
    | cycle => exact absurd rfl hne
    | noLocation r => rfl
    | fetchError u => rfl
    | outOfFuel => rfl
  | ok st =>
    obtain ⟨hknd, hedg, _, _⟩ := buildPass_inv rl fp root rootLoc fuel st hb
    have hsome := kahnAux_isSome st.graph.treeEdges
      (fun x => st.graph.keys.indexOf x) st.graph.keys.length st.graph.keys
      (Nat.le_refl _)
      (fun u v he hu hv => (hedg (u, v) he).2.2)
    obtain ⟨order, horder⟩ := Option.isSome_iff_exists.mp hsome
    have hts : st.graph.topological_sort =
        .ok (order.reverse.filterMap fun u =>
          (lookupDoc st.graph.nodes u).map fun d => (u, d)) := by
      rw [ImportsGraph.topological_sort,
        show kahnSort st.graph.treeEdges st.graph.keys = some order from horder]
    rw [build_ordered_imports, hb]
    show isCycleError
      (match st.graph.topological_sort with
       | .error .cycle => .error .cycle
       | .ok ordered => .ok ordered) = false
    rw [hts]
    rfl

/-- C6: registering an imported document is idempotent — a key already
present keeps the document stored at first registration (the node list is
unchanged) — and for every successful build pass, each unique resolved
location passes through the resolver at most once (the fetch log is
duplicate-free), and the ordering operation yields exactly one entry per
key (a duplicate-free permutation of the registered keys), each carrying
the document stored at first registration. -/
theorem C6_idempotent_add_single_fetch :
    (∀ (g : ImportsGraph) (url : String) (doc : DocMap)
       (via : Option String), url ∈ g.keys →
       (g.add url doc via).nodes = g.nodes) ∧
    (∀ (rl : String → Option String) (fp : String → Option DocMap)
       (root : DocMap) (rootLoc : Option String) (fuel : Nat)
       (st : BuildState),
       buildPass rl fp root rootLoc fuel = .ok st →
       st.fetched.Nodup ∧
       ∀ l, st.graph.topological_sort = .ok l →
         (l.map Prod.fst).Nodup ∧ (l.map Prod.fst).Perm st.graph.keys ∧
         ∀ e ∈ l, lookupDoc st.graph.nodes e.1 = some e.2) := by
  constructor
  · intro g url doc via hmem
    cases via with
    | none => simp [ImportsGraph.add, hmem]
    | some v => simp [ImportsGraph.add, hmem]
  · intro rl fp root rootLoc fuel st hb
    obtain ⟨hknd, _, hfnd, _⟩ := buildPass_inv rl fp root rootLoc fuel st hb
    refine ⟨hfnd, ?_⟩
    intro l hts
    obtain ⟨hperm, hlook⟩ := topological_sort_ok_spec st.graph l hts
    exact ⟨hperm.nodup_iff.mpr hknd, hperm, hlook⟩

/-- Witness for C6: re-registering `root` leaves the node list unchanged,
and the chain build's fetch log is the single url `A`. -/
theorem C6_idempotent_add_single_fetch_witness :
    ((ImportsGraph.empty.add "root" chainRoot none).add "root" chainDocA
        (some "root")).nodes =
      (ImportsGraph.empty.add "root" chainRoot none).nodes ∧
    (["A"] : List String).Nodup :=
  ⟨C6_idempotent_add_single_fetch.1 _ "root" chainDocA (some "root")
      (by decide),
   (C6_idempotent_add_single_fetch.2 cycResolve chainFetch chainRoot none 5
      ⟨chainGraph, ["A"]⟩ rfl).1⟩

end Aria
